import Mathlib

set_option maxHeartbeats 1600000

namespace MdRender

/-! Shallow embedding of the markdown parser component of `src/md-render.js`
(the rule-table revision; the spec designates the duplicated older revision as
superseded).  Strings are modelled as `List Char`; the document is split into
lines on the newline character exactly as `text.split('\n')` does.  The
JavaScript regexes of `PATTERNS` and of the inline rule table are translated,
backtracking semantics included, into explicit functions on character lists.
The three scanning loops (`parseMarkdown`'s line loop, `parseList`'s item
loop and `parseInline`'s tokenizer loop) advance a cursor by a data-dependent
amount; they are rendered as structurally recursive functions on an explicit
bound initialised to the input length, and unfolding theorems below prove the
bound never runs out, so each function satisfies the loop's step equation. -/

/-- Character class of the JavaScript regex `\s`, which is also the set of
characters removed by `String.prototype.trim`. -/
def isWs (c : Char) : Bool :=
  c == ' ' || c == '\t' || c == '\n' || c == '\r' || c == '\x0b' || c == '\x0c' ||
  c == '\u00a0' || c == '\u1680' || (decide ('\u2000' ≤ c) && decide (c ≤ '\u200a')) ||
  c == '\u2028' || c == '\u2029' || c == '\u202f' || c == '\u205f' || c == '\u3000' ||
  c == '\ufeff'

/-- `String.prototype.trim`. -/
def trim (s : List Char) : List Char :=
  ((s.dropWhile isWs).reverse.dropWhile isWs).reverse

/-- `text.split('\n')`; the empty string yields one empty line. -/
def splitLines : List Char → List (List Char)
  | [] => [[]]
  | c :: rest =>
    if c = '\n' then [] :: splitLines rest
    else
      match splitLines rest with
      | l :: ls => (c :: l) :: ls
      | [] => [[c]]

/-- `array.join('\n')` as used on collected code and quote lines. -/
def joinLines (ls : List (List Char)) : List Char :=
  List.intercalate ['\n'] ls

/-- Character class of the JavaScript regex `.` (no `s` flag): any character
except a line terminator. -/
def isDotChar (c : Char) : Bool :=
  !(c == '\n' || c == '\r' || c == '\u2028' || c == '\u2029')

/-- The common regex tail `\s+(.+)$` of `PATTERNS.ordered`, `PATTERNS.unordered`
and `PATTERNS.heading`, with JavaScript backtracking semantics (the greedy
`\s+` gives one character back when `(.+)` would otherwise be empty); returns
the `(.+)` capture on success. -/
def matchWsRest (r : List Char) : Option (List Char) :=
  let w := r.takeWhile isWs
  let rest := r.dropWhile isWs
  if w.isEmpty then none
  else if rest.isEmpty then
    match w.getLast? with
    | some c => if decide (2 ≤ w.length) && isDotChar c then some [c] else none
    | none => none
  else if rest.all isDotChar then some rest else none

/-- `PATTERNS.ordered = /^\d+\.\s+(.+)$/`; returns the capture group. -/
def matchOrdered (s : List Char) : Option (List Char) :=
  let ds := s.takeWhile Char.isDigit
  match s.dropWhile Char.isDigit with
  | '.' :: r => if ds.isEmpty then none else matchWsRest r
  | _ => none

/-- `PATTERNS.unordered = /^[-*+]\s+(.+)$/`; returns the capture group. -/
def matchUnordered : List Char → Option (List Char)
  | c :: r => if c == '-' || c == '*' || c == '+' then matchWsRest r else none
  | [] => none

/-- `PATTERNS.heading = /^(#{1,6})\s+(.+)$/`; returns (level, text capture). -/
def matchHeading (s : List Char) : Option (Nat × List Char) :=
  let hs := s.takeWhile (fun c => c == '#')
  if decide (1 ≤ hs.length) && decide (hs.length ≤ 6) then
    (matchWsRest (s.dropWhile (fun c => c == '#'))).map (fun g => (hs.length, g))
  else none

/-- `PATTERNS.hr = /^(-{3,}|\*{3,}|_{3,})$/`. -/
def isHr : List Char → Bool
  | [] => false
  | c :: r =>
    (c == '-' || c == '*' || c == '_') && (c :: r).all (fun d => d == c) &&
      decide (3 ≤ (c :: r).length)

/-- `PATTERNS.codeBlockStart = /^```/` used through `.test` (a prefix check). -/
def startsWithFence : List Char → Bool
  | '`' :: '`' :: '`' :: _ => true
  | _ => false

/-- `line.startsWith('>')`. -/
def startsWithGt : List Char → Bool
  | '>' :: _ => true
  | _ => false

/-- Inline nodes produced by `parseInline`.  Constructor and field names follow
the node objects of the source (the `link` node's first field is called `text`
in the source). -/
inductive Inline where
  | text (content : List Char)
  | bold (content : List Char)
  | italic (content : List Char)
  | strike (content : List Char)
  | code (content : List Char)
  | link (label href : List Char)
  | image (alt src : List Char)
deriving DecidableEq, Repr

/-- Inline rule 1: `/^!\[([^\]]*)\]\(([^)]+)\)/` (image).  Returns the emitted
node and the remaining suffix. -/
def matchImage : List Char → Option (Inline × List Char)
  | '!' :: '[' :: r =>
    let alt := r.takeWhile (fun c => c != ']')
    match r.dropWhile (fun c => c != ']') with
    | ']' :: '(' :: r2 =>
      let src := r2.takeWhile (fun c => c != ')')
      if src.isEmpty then none
      else
        match r2.dropWhile (fun c => c != ')') with
        | ')' :: rest => some (.image alt src, rest)
        | _ => none
    | _ => none
  | _ => none

/-- Inline rule 2: `/^\[([^\]]+)\]\(([^)]+)\)/` (link). -/
def matchLink : List Char → Option (Inline × List Char)
  | '[' :: r =>
    let label := r.takeWhile (fun c => c != ']')
    if label.isEmpty then none
    else
      match r.dropWhile (fun c => c != ']') with
      | ']' :: '(' :: r2 =>
        let href := r2.takeWhile (fun c => c != ')')
        if href.isEmpty then none
        else
          match r2.dropWhile (fun c => c != ')') with
          | ')' :: rest => some (.link label href, rest)
          | _ => none
      | _ => none
  | _ => none

/-- Inline rule 3: the inline-code regex `` /^`([^`]+)`/ ``. -/
def matchCode : List Char → Option (Inline × List Char)
  | '`' :: r =>
    let content := r.takeWhile (fun c => c != '`')
    if content.isEmpty then none
    else
      match r.dropWhile (fun c => c != '`') with
      | '`' :: rest => some (.code content, rest)
      | _ => none
  | _ => none

/-- Inline rule 4: `/^(\*\*|__)([^*_]+)\1/` (bold); the backreference forces the
closing delimiter to repeat the opening one. -/
def matchBold : List Char → Option (Inline × List Char)
  | '*' :: '*' :: r =>
    let content := r.takeWhile (fun c => c != '*' && c != '_')
    if content.isEmpty then none
    else
      match r.dropWhile (fun c => c != '*' && c != '_') with
      | '*' :: '*' :: rest => some (.bold content, rest)
      | _ => none
  | '_' :: '_' :: r =>
    let content := r.takeWhile (fun c => c != '*' && c != '_')
    if content.isEmpty then none
    else
      match r.dropWhile (fun c => c != '*' && c != '_') with
      | '_' :: '_' :: rest => some (.bold content, rest)
      | _ => none
  | _ => none

/-- Inline rule 5: `/^(\*|_)([^*_]+)\1/` (italic). -/
def matchItalic : List Char → Option (Inline × List Char)
  | '*' :: r =>
    let content := r.takeWhile (fun c => c != '*' && c != '_')
    if content.isEmpty then none
    else
      match r.dropWhile (fun c => c != '*' && c != '_') with
      | '*' :: rest => some (.italic content, rest)
      | _ => none
  | '_' :: r =>
    let content := r.takeWhile (fun c => c != '*' && c != '_')
    if content.isEmpty then none
    else
      match r.dropWhile (fun c => c != '*' && c != '_') with
      | '_' :: rest => some (.italic content, rest)
      | _ => none
  | _ => none

/-- Inline rule 6: `/^~~([^~]+)~~/` (strikethrough). -/
def matchStrike : List Char → Option (Inline × List Char)
  | '~' :: '~' :: r =>
    let content := r.takeWhile (fun c => c != '~')
    if content.isEmpty then none
    else
      match r.dropWhile (fun c => c != '~') with
      | '~' :: '~' :: rest => some (.strike content, rest)
      | _ => none
  | _ => none

/-- The rule table of `parseInline` applied in priority order: the first rule
whose anchored regex matches the remaining suffix wins. -/
def tryRules (s : List Char) : Option (Inline × List Char) :=
  match matchImage s with
  | some tr => some tr
  | none =>
    match matchLink s with
    | some tr => some tr
    | none =>
      match matchCode s with
      | some tr => some tr
      | none =>
        match matchBold s with
        | some tr => some tr
        | none =>
          match matchItalic s with
          | some tr => some tr
          | none => matchStrike s

/-- The special characters of the plain-text fallback scan, the regex class
used in `remaining.search(...)`: backtick, `*`, `_`, `~`, `!`, `[`. -/
def isSpecial (c : Char) : Bool :=
  c == '`' || c == '*' || c == '_' || c == '~' || c == '!' || c == '['

/-- Length of the plain-text fallback token: up to the next special character;
the whole remainder when none exists; a single character when the special
character sits at position 0 (an unpaired delimiter). -/
def fallbackLen (s : List Char) : Nat :=
  match s.findIdx? isSpecial with
  | none => s.length
  | some n => if n = 0 then 1 else n

/-- The tokenizer loop of `parseInline`, structurally recursive on an explicit
bound; `tokenize` runs it with bound `s.length`, which theorem `tokenize_cons`
below proves sufficient (each iteration consumes at least one character). -/
def tokenizeF : Nat → List Char → List Inline
  | _, [] => []
  | 0, _ => []
  | fuel + 1, c :: cs =>
    match tryRules (c :: cs) with
    | some tr => tr.1 :: tokenizeF fuel tr.2
    | none =>
      .text ((c :: cs).take (fallbackLen (c :: cs))) ::
        tokenizeF fuel ((c :: cs).drop (fallbackLen (c :: cs)))

/-- The token stream of `parseInline` before adjacent-text merging. -/
def tokenize (s : List Char) : List Inline :=
  tokenizeF s.length s

/-- One step of the `tokens.reduce(...)` merge: a text token is absorbed into a
trailing text accumulator node, anything else is appended. -/
def mergeStep (acc : List Inline) (token : Inline) : List Inline :=
  match acc.getLast?, token with
  | some (.text c0), .text c => acc.dropLast ++ [.text (c0 ++ c)]
  | _, _ => acc ++ [token]

/-- The `tokens.reduce(...)` pass of `parseInline` merging adjacent text nodes. -/
def mergeTokens (tokens : List Inline) : List Inline :=
  tokens.foldl mergeStep []

/-- `parseInline`: empty input yields a single empty text node, otherwise the
tokenizer runs and adjacent text tokens are merged. -/
def parseInline (s : List Char) : List Inline :=
  if s.isEmpty then [.text []] else mergeTokens (tokenize s)

/-- The nested list attached to a top-level list item: its items are built as
plain `listitem` nodes carrying only `children` (no further nesting). -/
structure NestedList where
  ordered : Bool
  items : List (List Inline)
deriving DecidableEq, Repr

/-- A top-level `listitem` node: inline children plus an optional nested list. -/
structure ListItem where
  children : List Inline
  nestedList : Option NestedList
deriving DecidableEq, Repr

/-- Block nodes produced by the block scanner. -/
inductive Block where
  | heading (level : Nat) (children : List Inline)
  | paragraph (children : List Inline)
  | hr
  | codeblock (language content : List Char)
  | blockquote (children : List Inline)
  | list (ordered : Bool) (items : List ListItem)
deriving DecidableEq, Repr

/-- The collection loop of `parseCodeBlock`: gather raw (untrimmed) lines until
one whose trimmed form starts with the fence marker; that closing line is
consumed but not collected.  Returns (collected lines, remaining lines). -/
def scanCode : List (List Char) → List (List Char) × List (List Char)
  | [] => ([], [])
  | l :: ls =>
    if startsWithFence (trim l) then ([], ls)
    else
      let res := scanCode ls
      (l :: res.1, res.2)

/-- The collection loop of `parseBlockquote`: consume `>`-lines (marker
stripped, then trimmed) and blank lines immediately followed by a `>`-line
(kept as empty strings); stop at anything else. -/
def scanQuote : List (List Char) → List (List Char) × List (List Char)
  | [] => ([], [])
  | l :: ls =>
    if startsWithGt (trim l) then
      let res := scanQuote ls
      (trim ((trim l).drop 1) :: res.1, res.2)
    else if (trim l).isEmpty &&
        (match ls with | l2 :: _ => startsWithGt (trim l2) | [] => false) then
      let res := scanQuote ls
      ([] :: res.1, res.2)
    else ([], l :: ls)

/-- A list marker pattern value (`PATTERNS.ordered` when `ordered`, else
`PATTERNS.unordered`), as passed around by `parseList`. -/
def matchListPat (ordered : Bool) (t : List Char) : Option (List Char) :=
  if ordered then matchOrdered t else matchUnordered t

/-- `peekNextNonEmpty(lines, index, ...patterns)`: whether the line after the
current one exists and its trimmed form matches one of the given patterns.
Callers pass the list of lines after the current (blank) line. -/
def peekNextNonEmpty (ls : List (List Char)) (pats : List Bool) : Bool :=
  match ls with
  | [] => false
  | l :: _ => pats.any (fun p => (matchListPat p (trim l)).isSome)

/-- The inner loop of `parseList` collecting a run of nested items matching the
opposite marker pattern; `ordered` is the orderedness of the enclosing list.
Blank lines survive when the next line still matches the nested or the main
pattern. -/
def scanNestedItems (ordered : Bool) : List (List Char) → List (List Inline) × List (List Char)
  | [] => ([], [])
  | l :: ls =>
    match matchListPat (!ordered) (trim l) with
    | some content =>
      let res := scanNestedItems ordered ls
      (parseInline content :: res.1, res.2)
    | none =>
      if (trim l).isEmpty && peekNextNonEmpty ls [!ordered, ordered] then
        scanNestedItems ordered ls
      else ([], l :: ls)

/-- The outer loop of `parseList`, structurally recursive on an explicit bound;
`scanListItems` runs it with bound `lines.length`, which theorem
`scanListItems_cons` below proves sufficient.  Each main-pattern match emits a
`listitem` whose nested list is the (possibly empty, then omitted) run
collected by `scanNestedItems`; a blank line survives when the next line still
matches the main pattern. -/
def scanListItemsF (ordered : Bool) : Nat → List (List Char) → List ListItem × List (List Char)
  | _, [] => ([], [])
  | 0, ls => ([], ls)
  | fuel + 1, l :: ls =>
    match matchListPat ordered (trim l) with
    | some content =>
      let res := scanNestedItems ordered ls
      let more := scanListItemsF ordered fuel res.2
      ({ children := parseInline content,
         nestedList := if res.1.isEmpty then none else some ⟨!ordered, res.1⟩ } :: more.1,
       more.2)
    | none =>
      if (trim l).isEmpty && peekNextNonEmpty ls [ordered] then
        scanListItemsF ordered fuel ls
      else ([], l :: ls)

/-- The item loop of `parseList` on the current line and the lines after it. -/
def scanListItems (ordered : Bool) (ls : List (List Char)) : List ListItem × List (List Char) :=
  scanListItemsF ordered ls.length ls

/-- `parseList`: orderedness comes from testing `PATTERNS.ordered` on the first
(trimmed) line; the loop re-examines that first line as its first item. -/
def parseList (l : List Char) (ls : List (List Char)) : Block × List (List Char) :=
  let isOrdered := (matchOrdered (trim l)).isSome
  let res := scanListItems isOrdered (l :: ls)
  (.list isOrdered res.1, res.2)

/-- `parseCodeBlock`: the language tag is the trimmed text after the fence
marker of the (trimmed) opening line; content is the raw lines up to the
closing fence, joined. -/
def parseCodeBlock (l : List Char) (ls : List (List Char)) : Block × List (List Char) :=
  let res := scanCode ls
  (.codeblock (trim ((trim l).drop 3)) (joinLines res.1), res.2)

/-- `parseBlockquote`: collected quote lines are joined and inline-parsed. -/
def parseBlockquote (l : List Char) (ls : List (List Char)) : Block × List (List Char) :=
  let res := scanQuote (l :: ls)
  (.blockquote (parseInline (joinLines res.1)), res.2)

/-- `parseLine` on the current line and the lines after it: classify the
trimmed line in the source's order (blank, code fence, heading, horizontal
rule, blockquote, list, paragraph) and return the produced node (if any) with
the remaining unread lines. -/
def parseLine (l : List Char) (ls : List (List Char)) : Option Block × List (List Char) :=
  let t := trim l
  if t.isEmpty then (none, ls)
  else if startsWithFence t then
    let res := parseCodeBlock l ls
    (some res.1, res.2)
  else
    match matchHeading t with
    | some hm => (some (.heading hm.1 (parseInline hm.2)), ls)
    | none =>
      if isHr t then (some .hr, ls)
      else if startsWithGt t then
        let res := parseBlockquote l ls
        (some res.1, res.2)
      else if (matchOrdered t).isSome || (matchUnordered t).isSome then
        let res := parseList l ls
        (some res.1, res.2)
      else (some (.paragraph (parseInline t)), ls)

/-- The line loop of `parseMarkdown`, structurally recursive on an explicit
bound; `parseBlocks` runs it with bound `lines.length`, which theorem
`parseBlocks_cons` below proves sufficient (every `parseLine` advances). -/
def parseBlocksF : Nat → List (List Char) → List Block
  | _, [] => []
  | 0, _ => []
  | fuel + 1, l :: ls =>
    let res := parseLine l ls
    match res.1 with
    | some b => b :: parseBlocksF fuel res.2
    | none => parseBlocksF fuel res.2

/-- The whole-document loop of `parseMarkdown` over a line list. -/
def parseBlocks (ls : List (List Char)) : List Block :=
  parseBlocksF ls.length ls

/-- `parseMarkdown`: split on newlines and run the block scanner. -/
def parseMarkdown (s : List Char) : List Block :=
  parseBlocks (splitLines s)

/-- The exact source substring an inline node stands for: its literal content
together with the markup delimiters (and, for links and images, the url field)
that its rule consumed around it. -/
inductive Tok1 : Inline → List Char → Prop where
  | text (c : List Char) : Tok1 (.text c) c
  | code (c : List Char) : Tok1 (.code c) ('`' :: (c ++ ['`']))
  | boldS (c : List Char) : Tok1 (.bold c) ('*' :: '*' :: (c ++ ['*', '*']))
  | boldU (c : List Char) : Tok1 (.bold c) ('_' :: '_' :: (c ++ ['_', '_']))
  | italS (c : List Char) : Tok1 (.italic c) ('*' :: (c ++ ['*']))
  | italU (c : List Char) : Tok1 (.italic c) ('_' :: (c ++ ['_']))
  | strike (c : List Char) : Tok1 (.strike c) ('~' :: '~' :: (c ++ ['~', '~']))
  | link (t h : List Char) : Tok1 (.link t h) ('[' :: (t ++ ']' :: '(' :: (h ++ [')'])))
  | image (a s : List Char) :
      Tok1 (.image a s) ('!' :: '[' :: (a ++ ']' :: '(' :: (s ++ [')'])))

/-- A token sequence covers a string when the tokens' source substrings, in
order, concatenate to it with no gaps or overlaps: all visible text survives in
the nodes and only per-rule markup (plus link/image urls) is stripped. -/
inductive Covers : List Inline → List Char → Prop where
  | nil : Covers [] []
  | cons {t : Inline} {u : List Char} {ts : List Inline} {rest : List Char} :
      Tok1 t u → Covers ts rest → Covers (t :: ts) (u ++ rest)

/-- Whether an inline node is a plain text node. -/
def isTextTok : Inline → Bool
  | .text _ => true
  | _ => false

/-- No two consecutive nodes of the sequence are both plain text. -/
def NoAdjText (ts : List Inline) : Prop :=
  List.Chain' (fun a b => isTextTok a = false ∨ isTextTok b = false) ts

/-- The nesting invariant of a block: any nested list attached to an item of a
list node has the opposite orderedness (its items structurally carry no
further nesting). -/
def listOk : Block → Prop
  | .list o items => ∀ it ∈ items, ∀ nl, it.nestedList = some nl → nl.ordered = !o
  | _ => True

/-- Every inline-children sequence a block hands to a renderer is nonempty. -/
def childrenOk : Block → Prop
  | .heading _ cs => cs ≠ []
  | .paragraph cs => cs ≠ []
  | .blockquote cs => cs ≠ []
  | .list _ items =>
      ∀ it ∈ items, it.children ≠ [] ∧
        ∀ nl, it.nestedList = some nl → ∀ cs ∈ nl.items, cs ≠ []
  | _ => True

/-! ### Generic list helpers -/

theorem takeWhile_ne_nil_cons {α} {p : α → Bool} {l : List α}
    (h : (l.takeWhile p).isEmpty = false) : ∃ a r, l = a :: r ∧ p a = true := by
  cases l with
  | nil => simp [List.takeWhile] at h
  | cons a r =>
    by_cases hp : p a = true
    · exact ⟨a, r, rfl, hp⟩
    · rw [List.takeWhile_cons, if_neg (by simp_all)] at h
      simp at h

/-! ### Source decomposition of the inline rules: each successful match
consumed exactly the node's literal content wrapped in that rule's markup. -/

theorem matchImage_src {s : List Char} {tr : Inline × List Char} (h : matchImage s = some tr) :
    ∃ a u, tr.1 = .image a u ∧
      s = ('!' :: '[' :: (a ++ ']' :: '(' :: (u ++ [')']))) ++ tr.2 := by
  unfold matchImage at h
  split at h
  case _ r =>
    split at h
    case _ r2 heq =>
      split at h
      case _ rest heq2 =>
        dsimp only at h
        split at h
        case _ => exact absurd h (by simp)
        case _ =>
          cases h
          refine ⟨_, _, rfl, ?_⟩
          have e1 := List.takeWhile_append_dropWhile (p := fun c => c != ']') (l := r)
          have e2 := List.takeWhile_append_dropWhile (p := fun c => c != ')') (l := r2)
          rw [heq] at e1
          rw [heq2] at e2
          conv_lhs => rw [← e1]
          conv_lhs => rw [← e2]
          simp [List.append_assoc]
      case _ => exact absurd h (by simp)
    case _ => exact absurd h (by simp)
  case _ => exact absurd h (by simp)

theorem matchLink_src {s : List Char} {tr : Inline × List Char} (h : matchLink s = some tr) :
    ∃ a u, tr.1 = .link a u ∧
      s = ('[' :: (a ++ ']' :: '(' :: (u ++ [')']))) ++ tr.2 := by
  unfold matchLink at h
  split at h
  case _ r =>
    split at h
    case _ r2 heq =>
      split at h
      case _ rest heq2 =>
        dsimp only at h
        split at h
        case _ => exact absurd h (by simp)
        case _ =>
          split at h
          case _ => exact absurd h (by simp)
          case _ =>
            cases h
            refine ⟨_, _, rfl, ?_⟩
            have e1 := List.takeWhile_append_dropWhile (p := fun c => c != ']') (l := r)
            have e2 := List.takeWhile_append_dropWhile (p := fun c => c != ')') (l := r2)
            rw [heq] at e1
            rw [heq2] at e2
            conv_lhs => rw [← e1]
            conv_lhs => rw [← e2]
            simp [List.append_assoc]
      case _ => exact absurd h (by simp)
    case _ => exact absurd h (by simp)
  case _ => exact absurd h (by simp)

theorem matchCode_src {s : List Char} {tr : Inline × List Char} (h : matchCode s = some tr) :
    ∃ c, tr.1 = .code c ∧ s = ('`' :: (c ++ ['`'])) ++ tr.2 := by
  unfold matchCode at h
  split at h
  case _ r =>
    split at h
    case _ rest heq =>
      dsimp only at h
      split at h
      case _ => exact absurd h (by simp)
      case _ =>
        cases h
        refine ⟨_, rfl, ?_⟩
        have e1 := List.takeWhile_append_dropWhile (p := fun c => c != '`') (l := r)
        rw [heq] at e1
        conv_lhs => rw [← e1]
        simp [List.append_assoc]
    case _ => exact absurd h (by simp)
  case _ => exact absurd h (by simp)

theorem matchBold_src {s : List Char} {tr : Inline × List Char} (h : matchBold s = some tr) :
    ∃ c, tr.1 = .bold c ∧
      (s = ('*' :: '*' :: (c ++ ['*', '*'])) ++ tr.2 ∨
       s = ('_' :: '_' :: (c ++ ['_', '_'])) ++ tr.2) := by
  unfold matchBold at h
  split at h
  case _ r =>
    split at h
    case _ rest heq =>
      dsimp only at h
      split at h
      case _ => exact absurd h (by simp)
      case _ =>
        cases h
        refine ⟨_, rfl, Or.inl ?_⟩
        have e1 := List.takeWhile_append_dropWhile (p := fun c => c != '*' && c != '_') (l := r)
        rw [heq] at e1
        conv_lhs => rw [← e1]
        simp [List.append_assoc]
    case _ => exact absurd h (by simp)
  case _ r =>
    split at h
    case _ rest heq =>
      dsimp only at h
      split at h
      case _ => exact absurd h (by simp)
      case _ =>
        cases h
        refine ⟨_, rfl, Or.inr ?_⟩
        have e1 := List.takeWhile_append_dropWhile (p := fun c => c != '*' && c != '_') (l := r)
        rw [heq] at e1
        conv_lhs => rw [← e1]
        simp [List.append_assoc]
    case _ => exact absurd h (by simp)
  case _ => exact absurd h (by simp)

theorem matchItalic_src {s : List Char} {tr : Inline × List Char} (h : matchItalic s = some tr) :
    ∃ c, tr.1 = .italic c ∧
      (s = ('*' :: (c ++ ['*'])) ++ tr.2 ∨ s = ('_' :: (c ++ ['_'])) ++ tr.2) := by
  unfold matchItalic at h
  split at h
  case _ r =>
    split at h
    case _ rest heq =>
      dsimp only at h
      split at h
      case _ => exact absurd h (by simp)
      case _ =>
        cases h
        refine ⟨_, rfl, Or.inl ?_⟩
        have e1 := List.takeWhile_append_dropWhile (p := fun c => c != '*' && c != '_') (l := r)
        rw [heq] at e1
        conv_lhs => rw [← e1]
        simp [List.append_assoc]
    case _ => exact absurd h (by simp)
  case _ r =>
    split at h
    case _ rest heq =>
      dsimp only at h
      split at h
      case _ => exact absurd h (by simp)
      case _ =>
        cases h
        refine ⟨_, rfl, Or.inr ?_⟩
        have e1 := List.takeWhile_append_dropWhile (p := fun c => c != '*' && c != '_') (l := r)
        rw [heq] at e1
        conv_lhs => rw [← e1]
        simp [List.append_assoc]
    case _ => exact absurd h (by simp)
  case _ => exact absurd h (by simp)

theorem matchStrike_src {s : List Char} {tr : Inline × List Char} (h : matchStrike s = some tr) :
    ∃ c, tr.1 = .strike c ∧ s = ('~' :: '~' :: (c ++ ['~', '~'])) ++ tr.2 := by
  unfold matchStrike at h
  split at h
  case _ r =>
    split at h
    case _ rest heq =>
      dsimp only at h
      split at h
      case _ => exact absurd h (by simp)
      case _ =>
        cases h
        refine ⟨_, rfl, ?_⟩
        have e1 := List.takeWhile_append_dropWhile (p := fun c => c != '~') (l := r)
        rw [heq] at e1
        conv_lhs => rw [← e1]
        simp [List.append_assoc]
    case _ => exact absurd h (by simp)
  case _ => exact absurd h (by simp)

/-- A successful rule match consumed a nonempty prefix that is exactly the
emitted node's source form. -/
theorem tryRules_src {s : List Char} {tr : Inline × List Char} (h : tryRules s = some tr) :
    ∃ u, Tok1 tr.1 u ∧ s = u ++ tr.2 ∧ 1 ≤ u.length := by
  unfold tryRules at h
  split at h
  case _ heq =>
    cases h
    obtain ⟨a, u, h1, h2⟩ := matchImage_src heq
    exact ⟨_, h1 ▸ Tok1.image a u, h2, by simp⟩
  case _ =>
    split at h
    case _ heq =>
      cases h
      obtain ⟨a, u, h1, h2⟩ := matchLink_src heq
      exact ⟨_, h1 ▸ Tok1.link a u, h2, by simp⟩
    case _ =>
      split at h
      case _ heq =>
        cases h
        obtain ⟨c, h1, h2⟩ := matchCode_src heq
        exact ⟨_, h1 ▸ Tok1.code c, h2, by simp⟩
      case _ =>
        split at h
        case _ heq =>
          cases h
          obtain ⟨c, h1, h2 | h2⟩ := matchBold_src heq
          · exact ⟨_, h1 ▸ Tok1.boldS c, h2, by simp⟩
          · exact ⟨_, h1 ▸ Tok1.boldU c, h2, by simp⟩
        case _ =>
          split at h
          case _ heq =>
            cases h
            obtain ⟨c, h1, h2 | h2⟩ := matchItalic_src heq
            · exact ⟨_, h1 ▸ Tok1.italS c, h2, by simp⟩
            · exact ⟨_, h1 ▸ Tok1.italU c, h2, by simp⟩
          case _ =>
            obtain ⟨c, h1, h2⟩ := matchStrike_src h
            exact ⟨_, h1 ▸ Tok1.strike c, h2, by simp⟩

/-- Every successful rule match strictly shrinks the remaining suffix. -/
theorem tryRules_shrink {s : List Char} {tr : Inline × List Char} (h : tryRules s = some tr) :
    tr.2.length < s.length := by
  obtain ⟨u, _, h2, h3⟩ := tryRules_src h
  subst h2
  simp only [List.length_append]
  omega

/-- The plain-text fallback consumes at least one character. -/
theorem fallbackLen_pos {s : List Char} (h : s ≠ []) : 1 ≤ fallbackLen s := by
  unfold fallbackLen
  split
  case _ => simpa [Nat.succ_le, List.length_pos] using h
  case _ n _ =>
    split
    · omega
    · omega

/-- The tokenizer bound is irrelevant once it reaches the remaining length. -/
theorem tokenizeF_irrel :
    ∀ f1 f2 (s : List Char), s.length ≤ f1 → s.length ≤ f2 →
      tokenizeF f1 s = tokenizeF f2 s := by
  intro f1
  induction f1 with
  | zero =>
    intro f2 s h1 _
    have hs : s = [] := List.length_eq_zero.mp (Nat.le_zero.mp h1)
    subst hs
    cases f2 <;> rfl
  | succ f ih =>
    intro f2 s h1 h2
    cases s with
    | nil => cases f2 <;> rfl
    | cons c cs =>
      cases f2 with
      | zero => simp at h2
      | succ f2' =>
        simp only [tokenizeF]
        cases htr : tryRules (c :: cs) with
        | some tr =>
          simp only [htr]
          have hsh := tryRules_shrink htr
          simp only [List.length_cons] at h1 h2 hsh
          rw [ih f2' tr.2 (by omega) (by omega)]
        | none =>
          simp only [htr]
          have hpos := fallbackLen_pos (s := c :: cs) (by simp)
          simp only [List.length_cons] at h1 h2
          rw [ih f2' _ (by simp only [List.length_drop, List.length_cons]; omega)
                (by simp only [List.length_drop, List.length_cons]; omega)]

theorem tokenize_nil : tokenize [] = [] := rfl

/-- The loop equation of the inline tokenizer: the successful rule's token (or
the fallback text token) is emitted and the loop continues on the remaining
suffix — the explicit bound in `tokenizeF` never runs out. -/
theorem tokenize_cons (c : Char) (cs : List Char) :
    tokenize (c :: cs) =
      match tryRules (c :: cs) with
      | some tr => tr.1 :: tokenize tr.2
      | none =>
          .text ((c :: cs).take (fallbackLen (c :: cs))) ::
            tokenize ((c :: cs).drop (fallbackLen (c :: cs))) := by
  show tokenizeF (c :: cs).length (c :: cs) = _
  simp only [List.length_cons, tokenizeF]
  cases htr : tryRules (c :: cs) with
  | some tr =>
    simp only [htr]
    have hsh := tryRules_shrink htr
    simp only [List.length_cons] at hsh
    rw [tokenizeF_irrel cs.length tr.2.length tr.2 (by omega) le_rfl]
    rfl
  | none =>
    simp only [htr]
    have hpos := fallbackLen_pos (s := c :: cs) (by simp)
    rw [tokenizeF_irrel cs.length _ _ (by simp only [List.length_drop, List.length_cons]; omega)
        le_rfl]
    rfl

/-- The raw token stream covers the input exactly. -/
theorem covers_tokenizeF :
    ∀ f (s : List Char), s.length ≤ f → Covers (tokenizeF f s) s := by
  intro f
  induction f with
  | zero =>
    intro s h
    have hs : s = [] := List.length_eq_zero.mp (Nat.le_zero.mp h)
    subst hs
    exact Covers.nil
  | succ f ih =>
    intro s h
    cases s with
    | nil => exact Covers.nil
    | cons c cs =>
      simp only [tokenizeF]
      cases htr : tryRules (c :: cs) with
      | some tr =>
        simp only [htr]
        obtain ⟨u, htok, hs, _⟩ := tryRules_src htr
        rw [hs]
        have hsh := tryRules_shrink htr
        simp only [List.length_cons] at h hsh
        exact Covers.cons htok (ih tr.2 (by omega))
      | none =>
        simp only [htr]
        have hpos := fallbackLen_pos (s := c :: cs) (by simp)
        have hrec := ih ((c :: cs).drop (fallbackLen (c :: cs)))
          (by simp only [List.length_drop, List.length_cons] at *; omega)
        have hcov :
            Covers (.text ((c :: cs).take (fallbackLen (c :: cs))) ::
                tokenizeF f ((c :: cs).drop (fallbackLen (c :: cs))))
              ((c :: cs).take (fallbackLen (c :: cs)) ++ (c :: cs).drop (fallbackLen (c :: cs))) :=
          Covers.cons (Tok1.text _) hrec
        rwa [List.take_append_drop] at hcov

theorem covers_tokenize (s : List Char) : Covers (tokenize s) s :=
  covers_tokenizeF s.length s le_rfl

theorem covers_append {ts1 : List Inline} {s1 : List Char} {ts2 : List Inline} {s2 : List Char}
    (h1 : Covers ts1 s1) (h2 : Covers ts2 s2) : Covers (ts1 ++ ts2) (s1 ++ s2) := by
  induction h1 with
  | nil => simpa using h2
  | cons htok _ ih => simpa [List.append_assoc] using Covers.cons htok ih

theorem covers_singleton {t : Inline} {u : List Char} (h : Tok1 t u) : Covers [t] u := by
  simpa using Covers.cons h Covers.nil

/-- When the accumulated tokens end in a text node, the covered string ends in
that node's content and the other tokens cover the remainder. -/
theorem covers_getLast_text {acc : List Inline} {s c0 : List Char} (h : Covers acc s) :
    acc.getLast? = some (.text c0) → ∃ s1, s = s1 ++ c0 ∧ Covers acc.dropLast s1 := by
  induction h with
  | nil => intro hl; simp at hl
  | @cons t u ts rest htok hrest ih =>
    intro hl
    cases ts with
    | nil =>
      simp only [List.getLast?_singleton, Option.some.injEq] at hl
      subst hl
      cases htok
      cases hrest
      exact ⟨[], by simp, Covers.nil⟩
    | cons t2 ts2 =>
      rw [List.getLast?_cons_cons] at hl
      obtain ⟨s1, he, hc⟩ := ih hl
      refine ⟨u ++ s1, by rw [he]; simp [List.append_assoc], ?_⟩
      have hd : (t :: t2 :: ts2).dropLast = t :: (t2 :: ts2).dropLast := by
        simp [List.dropLast]
      rw [hd]
      exact Covers.cons htok hc

/-- One merge step preserves exact coverage. -/
theorem mergeStep_covers {acc : List Inline} {s1 : List Char} {t : Inline} {u : List Char}
    (hc : Covers acc s1) (ht : Tok1 t u) : Covers (mergeStep acc t) (s1 ++ u) := by
  unfold mergeStep
  split
  case _ =>
    rename_i c0 c heq
    have hu : u = c := by cases ht; rfl
    rw [hu]
    obtain ⟨s0, he, hdc⟩ := covers_getLast_text hc heq
    subst he
    have h2 : Covers (acc.dropLast ++ [.text (c0 ++ c)]) (s0 ++ (c0 ++ c)) :=
      covers_append hdc (covers_singleton (Tok1.text (c0 ++ c)))
    simpa [List.append_assoc] using h2
  case _ =>
    exact covers_append hc (covers_singleton ht)

theorem covers_foldl :
    ∀ (ts acc : List Inline) (s1 s2 : List Char),
      Covers acc s1 → Covers ts s2 → Covers (ts.foldl mergeStep acc) (s1 ++ s2) := by
  intro ts
  induction ts with
  | nil =>
    intro acc s1 s2 h1 h2
    cases h2
    simpa using h1
  | cons t ts' ih =>
    intro acc s1 s2 h1 h2
    cases h2 with
    | cons htok hrest =>
      rename_i u rest
      have := ih (mergeStep acc t) (s1 ++ u) rest (mergeStep_covers h1 htok) hrest
      simpa [List.append_assoc] using this

theorem covers_mergeTokens {ts : List Inline} {s : List Char} (h : Covers ts s) :
    Covers (mergeTokens ts) s := by
  have := covers_foldl ts [] [] s Covers.nil h
  simpa [mergeTokens] using this

/-- C2.  For every string, the inline nodes returned by `parseInline` cover the
input exactly, in order, with no gaps or overlaps: each node stands for a
contiguous source substring that is its literal content (text content,
bold/italic/strike/code content, link text, image alt) wrapped in that rule's
markup delimiters (with the link href and image src fields also recorded by
their rules), and the concatenation of those substrings is the whole input. -/
theorem c2_inline_coverage : ∀ s : List Char, Covers (parseInline s) s := by
  intro s
  unfold parseInline
  split
  case _ h =>
    have hs : s = [] := by simpa using h
    subst hs
    exact covers_singleton (Tok1.text [])
  case _ h =>
    exact covers_mergeTokens (covers_tokenize s)

theorem isTextTok_iff {i : Inline} : isTextTok i = true ↔ ∃ c, i = .text c := by
  cases i <;> simp [isTextTok]

theorem mergeStep_ne_nil (acc : List Inline) (t : Inline) : mergeStep acc t ≠ [] := by
  unfold mergeStep
  split <;> simp

theorem foldl_mergeStep_ne_nil :
    ∀ (ts acc : List Inline), acc ≠ [] → ts.foldl mergeStep acc ≠ [] := by
  intro ts
  induction ts with
  | nil => intro acc h; simpa using h
  | cons t ts' ih => intro acc _; exact ih _ (mergeStep_ne_nil acc t)

/-- C10 core fact: `parseInline` never returns an empty sequence. -/
theorem parseInline_ne_nil (s : List Char) : parseInline s ≠ [] := by
  unfold parseInline
  split
  · simp
  case _ h =>
    cases s with
    | nil => simp at h
    | cons c cs =>
      rcases htk : tokenize (c :: cs) with _ | ⟨t, ts⟩
      · rw [tokenize_cons] at htk
        revert htk
        split <;> simp
      · unfold mergeTokens
        rw [List.foldl_cons]
        exact foldl_mergeStep_ne_nil ts _ (mergeStep_ne_nil [] t)

/-- One merge step preserves the no-adjacent-text invariant. -/
theorem noAdjText_mergeStep {acc : List Inline} (h : NoAdjText acc) (t : Inline) :
    NoAdjText (mergeStep acc t) := by
  unfold mergeStep
  split
  case _ =>
    rename_i c0 c heq
    have hne : acc ≠ [] := by
      intro h0
      subst h0
      simp at heq
    have hdecomp := List.dropLast_append_getLast hne
    have hgl : acc.getLast hne = .text c0 := by
      have hq := List.getLast?_eq_getLast_of_ne_nil hne
      rw [hq] at heq
      exact Option.some_inj.mp heq
    unfold NoAdjText at h ⊢
    rw [← hdecomp, List.chain'_append] at h
    obtain ⟨h1, _, h3⟩ := h
    rw [List.chain'_append]
    refine ⟨h1, List.chain'_singleton _, ?_⟩
    intro x hx y hy
    have hr := h3 x hx (.text c0) (by simp [hgl])
    simp only [isTextTok] at hr
    rcases hr with hr | hr
    · exact Or.inl hr
    · exact absurd hr (by simp)
  case _ =>
    rename_i tt xign tokign hno
    unfold NoAdjText at h ⊢
    rw [List.chain'_append]
    refine ⟨h, List.chain'_singleton _, ?_⟩
    intro x hx y hy
    simp only [List.head?_cons, Option.mem_def, Option.some_inj] at hy
    subst hy
    by_cases hxt : isTextTok x = true
    · by_cases hyt : isTextTok tt = true
      · obtain ⟨cx, hcx⟩ := isTextTok_iff.mp hxt
        obtain ⟨cy, hcy⟩ := isTextTok_iff.mp hyt
        simp only [Option.mem_def] at hx
        rw [hcx] at hx
        exact (hno cx cy hx hcy).elim
      · exact Or.inr (by simpa using hyt)
    · exact Or.inl (by simpa using hxt)

theorem noAdjText_foldl :
    ∀ (ts acc : List Inline), NoAdjText acc → NoAdjText (ts.foldl mergeStep acc) := by
  intro ts
  induction ts with
  | nil => intro acc h; exact h
  | cons t ts' ih => intro acc h; exact ih _ (noAdjText_mergeStep h t)

/-- C5.  No children sequence produced by `parseInline` contains two
consecutive plain-text nodes: adjacent text tokens are merged at construction
time. -/
theorem c5_no_adjacent_text : ∀ s : List Char, NoAdjText (parseInline s) := by
  intro s
  unfold parseInline
  split
  · exact List.chain'_singleton _
  · exact noAdjText_foldl _ [] List.chain'_nil

/-! ### Advancement of the block-level scanning loops -/

theorem scanCode_rest_le : ∀ ls : List (List Char), ((scanCode ls).2).length ≤ ls.length := by
  intro ls
  induction ls with
  | nil => simp [scanCode]
  | cons l ls ih =>
    unfold scanCode
    split
    · simp
    · simpa using Nat.le_succ_of_le ih

theorem scanQuote_rest_le : ∀ ls : List (List Char), ((scanQuote ls).2).length ≤ ls.length := by
  intro ls
  induction ls with
  | nil => simp [scanQuote]
  | cons l ls ih =>
    unfold scanQuote
    split
    · simpa using Nat.le_succ_of_le ih
    · split
      · simpa using Nat.le_succ_of_le ih
      · simp

theorem scanNestedItems_rest_le (o : Bool) :
    ∀ ls : List (List Char), ((scanNestedItems o ls).2).length ≤ ls.length := by
  intro ls
  induction ls with
  | nil => simp [scanNestedItems]
  | cons l ls ih =>
    unfold scanNestedItems
    split
    · simpa using Nat.le_succ_of_le ih
    · split
      · exact Nat.le_succ_of_le ih
      · simp

theorem scanListItemsF_rest_le (o : Bool) :
    ∀ (fuel : Nat) (ls : List (List Char)),
      ((scanListItemsF o fuel ls).2).length ≤ ls.length := by
  intro fuel
  induction fuel with
  | zero =>
    intro ls
    cases ls <;> simp [scanListItemsF]
  | succ f ih =>
    intro ls
    cases ls with
    | nil => simp [scanListItemsF]
    | cons l ls =>
      simp only [scanListItemsF]
      split
      · have h1 := ih (scanNestedItems o ls).2
        have h2 := scanNestedItems_rest_le o ls
        simpa using Nat.le_succ_of_le (Nat.le_trans h1 h2)
      · split
        · exact Nat.le_succ_of_le (ih ls)
        · simp

theorem scanListItemsF_irrel (o : Bool) :
    ∀ f1 f2 (ls : List (List Char)), ls.length ≤ f1 → ls.length ≤ f2 →
      scanListItemsF o f1 ls = scanListItemsF o f2 ls := by
  intro f1
  induction f1 with
  | zero =>
    intro f2 ls h1 _
    have hs : ls = [] := List.length_eq_zero.mp (Nat.le_zero.mp h1)
    subst hs
    cases f2 <;> rfl
  | succ f ih =>
    intro f2 ls h1 h2
    cases ls with
    | nil => cases f2 <;> rfl
    | cons l ls =>
      cases f2 with
      | zero => simp at h2
      | succ f2' =>
        simp only [scanListItemsF]
        simp only [List.length_cons] at h1 h2
        cases hm : matchListPat o (trim l) with
        | some content =>
          simp only [hm]
          have hn := scanNestedItems_rest_le o ls
          rw [ih f2' (scanNestedItems o ls).2 (by omega) (by omega)]
        | none =>
          simp only [hm]
          split
          · exact ih f2' ls (by omega) (by omega)
          · rfl

theorem scanListItems_nil (o : Bool) : scanListItems o [] = ([], []) := rfl

/-- The loop equation of `parseList`'s item loop: the explicit bound in
`scanListItemsF` never runs out. -/
theorem scanListItems_cons (o : Bool) (l : List Char) (ls : List (List Char)) :
    scanListItems o (l :: ls) =
      match matchListPat o (trim l) with
      | some content =>
        ({ children := parseInline content,
           nestedList :=
             if (scanNestedItems o ls).1.isEmpty then none
             else some ⟨!o, (scanNestedItems o ls).1⟩ } ::
           (scanListItems o (scanNestedItems o ls).2).1,
         (scanListItems o (scanNestedItems o ls).2).2)
      | none =>
        if (trim l).isEmpty && peekNextNonEmpty ls [o] then scanListItems o ls
        else ([], l :: ls) := by
  show scanListItemsF o (l :: ls).length (l :: ls) = _
  simp only [List.length_cons, scanListItemsF]
  cases hm : matchListPat o (trim l) with
  | some content =>
    simp only [hm]
    rw [scanListItemsF_irrel o ls.length ((scanNestedItems o ls).2).length
          (scanNestedItems o ls).2 (scanNestedItems_rest_le o ls) le_rfl]
    rfl
  | none =>
    simp only [hm]
    rfl

theorem scanListItems_rest_le (o : Bool) (ls : List (List Char)) :
    ((scanListItems o ls).2).length ≤ ls.length :=
  scanListItemsF_rest_le o ls.length ls

/-- When the current line matches the guard of the list branch of `parseLine`,
`parseList` starts with a successful match and so truly advances. -/
theorem matchListPat_of_guard {t : List Char}
    (h : ((matchOrdered t).isSome || (matchUnordered t).isSome) = true) :
    (matchListPat ((matchOrdered t).isSome) t).isSome = true := by
  unfold matchListPat
  cases ho : (matchOrdered t).isSome with
  | true => simp [ho]
  | false =>
    rw [ho] at h
    simpa [ho] using h

theorem parseLine_rest_le (l : List Char) (ls : List (List Char)) :
    ((parseLine l ls).2).length ≤ ls.length := by
  unfold parseLine
  dsimp only
  split
  · exact le_rfl
  · split
    · exact scanCode_rest_le ls
    · split
      · exact le_rfl
      · split
        · exact le_rfl
        · split
          case _ hgt =>
            unfold parseBlockquote
            simp only
            unfold scanQuote
            rw [if_pos hgt]
            simpa using scanQuote_rest_le ls
          case _ =>
            split
            case _ hguard =>
              unfold parseList
              simp only
              have hpat := matchListPat_of_guard hguard
              cases hm : matchListPat ((matchOrdered (trim l)).isSome) (trim l) with
              | none => rw [hm] at hpat; simp at hpat
              | some content =>
                rw [scanListItems_cons, hm]
                simp only
                have h1 := scanListItems_rest_le ((matchOrdered (trim l)).isSome)
                  (scanNestedItems ((matchOrdered (trim l)).isSome) ls).2
                have h2 := scanNestedItems_rest_le ((matchOrdered (trim l)).isSome) ls
                exact Nat.le_trans h1 h2
            case _ => exact le_rfl

theorem parseBlocksF_irrel :
    ∀ f1 f2 (ls : List (List Char)), ls.length ≤ f1 → ls.length ≤ f2 →
      parseBlocksF f1 ls = parseBlocksF f2 ls := by
  intro f1
  induction f1 with
  | zero =>
    intro f2 ls h1 _
    have hs : ls = [] := List.length_eq_zero.mp (Nat.le_zero.mp h1)
    subst hs
    cases f2 <;> rfl
  | succ f ih =>
    intro f2 ls h1 h2
    cases ls with
    | nil => cases f2 <;> rfl
    | cons l ls =>
      cases f2 with
      | zero => simp at h2
      | succ f2' =>
        simp only [parseBlocksF]
        simp only [List.length_cons] at h1 h2
        have hrest := parseLine_rest_le l ls
        cases hm : (parseLine l ls).1 with
        | some b =>
          simp only [hm]
          rw [ih f2' (parseLine l ls).2 (by omega) (by omega)]
        | none =>
          simp only [hm]
          rw [ih f2' (parseLine l ls).2 (by omega) (by omega)]

theorem parseBlocks_nil : parseBlocks [] = [] := rfl

/-- The loop equation of the whole-document line loop: the explicit bound in
`parseBlocksF` never runs out because `parseLine` always advances. -/
theorem parseBlocks_cons (l : List Char) (ls : List (List Char)) :
    parseBlocks (l :: ls) =
      match (parseLine l ls).1 with
      | some b => b :: parseBlocks (parseLine l ls).2
      | none => parseBlocks (parseLine l ls).2 := by
  show parseBlocksF (l :: ls).length (l :: ls) = _
  simp only [List.length_cons, parseBlocksF]
  have hrest := parseLine_rest_le l ls
  cases hm : (parseLine l ls).1 with
  | some b =>
    simp only [hm]
    rw [parseBlocksF_irrel ls.length ((parseLine l ls).2).length (parseLine l ls).2
          hrest le_rfl]
    rfl
  | none =>
    simp only [hm]
    rw [parseBlocksF_irrel ls.length ((parseLine l ls).2).length (parseLine l ls).2
          hrest le_rfl]
    rfl

/-! ### Items and blocks produced by the scanners -/

theorem scanNestedItems_children (o : Bool) :
    ∀ ls : List (List Char), ∀ cs ∈ (scanNestedItems o ls).1, ∃ c, cs = parseInline c := by
  intro ls
  induction ls with
  | nil => simp [scanNestedItems]
  | cons l ls ih =>
    unfold scanNestedItems
    split
    case _ content hm =>
      dsimp only
      intro cs hcs
      rcases List.mem_cons.mp hcs with hcs | hcs
      · exact ⟨content, hcs⟩
      · exact ih cs hcs
    case _ =>
      split
      · exact ih
      · simp

theorem scanListItemsF_items (o : Bool) :
    ∀ (fuel : Nat) (ls : List (List Char)), ∀ it ∈ (scanListItemsF o fuel ls).1,
      (∃ c, it.children = parseInline c) ∧
      ∀ nl, it.nestedList = some nl →
        nl.ordered = !o ∧ ∀ cs ∈ nl.items, ∃ c, cs = parseInline c := by
  intro fuel
  induction fuel with
  | zero =>
    intro ls
    cases ls <;> simp [scanListItemsF]
  | succ f ih =>
    intro ls
    cases ls with
    | nil => simp [scanListItemsF]
    | cons l ls =>
      simp only [scanListItemsF]
      split
      case _ content hm =>
        dsimp only
        intro it hit
        rcases List.mem_cons.mp hit with hit | hit
        · subst hit
          refine ⟨⟨content, rfl⟩, ?_⟩
          intro nl hnl
          simp only at hnl
          split at hnl
          · exact absurd hnl (by simp)
          · cases hnl
            exact ⟨rfl, scanNestedItems_children o ls⟩
        · exact ih _ it hit
      case _ =>
        split
        · exact ih ls
        · simp

/-- Every block `parseLine` emits satisfies the nesting invariant and hands
only nonempty children sequences to the renderer. -/
theorem parseLine_block_ok (l : List Char) (ls : List (List Char)) {b : Block}
    (h : (parseLine l ls).1 = some b) : listOk b ∧ childrenOk b := by
  unfold parseLine at h
  dsimp only at h
  split at h
  · exact absurd h (by simp)
  · split at h
    · cases h
      exact ⟨trivial, trivial⟩
    · split at h
      case _ hm =>
        cases h
        exact ⟨trivial, parseInline_ne_nil _⟩
      case _ =>
        split at h
        · cases h
          exact ⟨trivial, trivial⟩
        · split at h
          · cases h
            exact ⟨trivial, parseInline_ne_nil _⟩
          · split at h
            case _ hguard =>
              cases h
              constructor
              · intro it hit nl hnl
                exact ((scanListItemsF_items _ _ _ it hit).2 nl hnl).1
              · intro it hit
                obtain ⟨⟨c, hc⟩, hnest⟩ := scanListItemsF_items _ _ _ it hit
                refine ⟨hc ▸ parseInline_ne_nil c, ?_⟩
                intro nl hnl cs hcs
                obtain ⟨c2, hc2⟩ := (hnest nl hnl).2 cs hcs
                exact hc2 ▸ parseInline_ne_nil c2
            case _ =>
              cases h
              exact ⟨trivial, parseInline_ne_nil _⟩

theorem parseBlocksF_ok :
    ∀ (fuel : Nat) (ls : List (List Char)), ∀ b ∈ parseBlocksF fuel ls,
      listOk b ∧ childrenOk b := by
  intro fuel
  induction fuel with
  | zero =>
    intro ls
    cases ls <;> simp [parseBlocksF]
  | succ f ih =>
    intro ls
    cases ls with
    | nil => simp [parseBlocksF]
    | cons l ls =>
      simp only [parseBlocksF]
      cases hm : (parseLine l ls).1 with
      | some b0 =>
        simp only [hm]
        intro b hb
        rcases List.mem_cons.mp hb with hb | hb
        · exact hb ▸ parseLine_block_ok l ls hm
        · exact ih _ b hb
      | none =>
        simp only [hm]
        exact ih _

/-- C1.  Parsing is a total function: every input string, however malformed,
yields a block-node sequence; the empty string yields the empty sequence, and
a malformed input (an unpaired `*` followed by an unterminated code fence)
still yields nodes rather than an error. -/
theorem c1_totality :
    (∀ s : List Char, ∃ ns : List Block, parseMarkdown s = ns) ∧
    parseMarkdown [] = [] ∧
    parseMarkdown ("*a\n```x".toList) =
      [.paragraph [.text ['*', 'a']], .codeblock ['x'] []] := by
  refine ⟨fun s => ⟨parseMarkdown s, rfl⟩, rfl, by decide⟩

/-- C4.  In every parsed document, a nested list attached to a list item has
the opposite orderedness of its enclosing list (and its items structurally
carry no further nesting); the five-line example produces one unordered list
of three items whose second item carries the ordered two-item nested list. -/
theorem c4_nested_list_invariant :
    (∀ s : List Char, ∀ b ∈ parseMarkdown s, listOk b) ∧
    parseMarkdown ("- a\n- b\n  1. x\n  2. y\n- c".toList) =
      [.list false [⟨[.text ['a']], none⟩,
                    ⟨[.text ['b']], some ⟨true, [[.text ['x']], [.text ['y']]]⟩⟩,
                    ⟨[.text ['c']], none⟩]] := by
  constructor
  · intro s b hb
    exact (parseBlocksF_ok _ _ b hb).1
  · decide

/-- Witness for C4 at the example input: the invariant holds at the concrete
list block the parser returns. -/
theorem c4_nested_list_invariant_witness :
    listOk (.list false [⟨[.text ['a']], none⟩,
                         ⟨[.text ['b']], some ⟨true, [[.text ['x']], [.text ['y']]]⟩⟩,
                         ⟨[.text ['c']], none⟩]) :=
  c4_nested_list_invariant.1 ("- a\n- b\n  1. x\n  2. y\n- c".toList) _ (by decide)

/-- C9.  Each inline-tokenizer iteration strictly shrinks the remaining
suffix: a successful rule match consumes its whole matched prefix, and the
plain-text fallback consumes at least one character; hence the loop
terminates. -/
theorem c9_tokenizer_progress :
    ∀ s : List Char, s ≠ [] →
      (∀ tr : Inline × List Char, tryRules s = some tr → tr.2.length < s.length) ∧
      ((s.drop (fallbackLen s)).length < s.length) := by
  intro s hs
  constructor
  · intro tr htr
    exact tryRules_shrink htr
  · have hpos := fallbackLen_pos hs
    have hlen : 1 ≤ s.length := by
      cases s with
      | nil => simp at hs
      | cons => simp
    simp only [List.length_drop]
    omega

/-- Witness for C9 at the single unpaired asterisk. -/
theorem c9_tokenizer_progress_witness :
    ((['*'] : List Char).drop (fallbackLen ['*'])).length < (['*'] : List Char).length :=
  (c9_tokenizer_progress ['*'] (by decide)).2

/-- C10.  Inline parsing of the empty string yields exactly one empty text
node, never an empty sequence, and every children sequence in every parsed
document is nonempty. -/
theorem c10_inline_nonempty :
    parseInline [] = [.text []] ∧
    (∀ s : List Char, parseInline s ≠ []) ∧
    (∀ s : List Char, ∀ b ∈ parseMarkdown s, childrenOk b) := by
  refine ⟨rfl, parseInline_ne_nil, ?_⟩
  intro s b hb
  exact (parseBlocksF_ok _ _ b hb).2

/-- Witness for C10 at a one-line paragraph. -/
theorem c10_inline_nonempty_witness :
    childrenOk (.paragraph [.text ['a']]) :=
  c10_inline_nonempty.2.2 ("a".toList) _ (by decide)

/-- The code-fence scan collects exactly the raw lines before the first line
whose trimmed form starts with the fence marker, and resumes after it. -/
theorem scanCode_eq :
    ∀ ls : List (List Char),
      scanCode ls =
        (ls.takeWhile (fun l' => !startsWithFence (trim l')),
         (ls.dropWhile (fun l' => !startsWithFence (trim l'))).drop 1) := by
  intro ls
  induction ls with
  | nil => rfl
  | cons l ls ih =>
    unfold scanCode
    split
    case _ hf =>
      rw [List.takeWhile_cons, List.dropWhile_cons]
      simp [hf]
    case _ hf =>
      rw [List.takeWhile_cons, List.dropWhile_cons]
      simp only [Bool.not_eq_true] at hf
      simp [hf, ih]

theorem startsWithFence_ne_nil {t : List Char} (h : startsWithFence t = true) :
    t.isEmpty = false := by
  cases t with
  | nil => simp [startsWithFence] at h
  | cons c cs => simp

/-- C3.  A line whose trimmed form starts with the fence marker opens a code
block whose content is exactly the raw, untrimmed following lines up to (and
excluding) the first line whose trimmed form starts with the marker, joined by
newlines, with no inline parsing; the closing fence line is consumed but not
included; when no closing fence exists the `takeWhile` is the whole remainder,
so all remaining lines are absorbed and parsing still succeeds. -/
theorem c3_codeblock_content (l : List Char) (ls : List (List Char))
    (h : startsWithFence (trim l) = true) :
    parseLine l ls =
      (some (.codeblock (trim ((trim l).drop 3))
          (joinLines (ls.takeWhile (fun l' => !startsWithFence (trim l'))))),
       (ls.dropWhile (fun l' => !startsWithFence (trim l'))).drop 1) := by
  unfold parseLine
  dsimp only
  rw [if_neg (by rw [startsWithFence_ne_nil h]; simp), if_pos h]
  unfold parseCodeBlock
  rw [scanCode_eq]

/-- Witness for C3: a fenced `js` block with one raw line and a trailing line
after the closing fence. -/
theorem c3_codeblock_content_witness :
    parseLine ("```js".toList) [['a'], "```".toList, ['b']] =
      (some (.codeblock ['j', 's'] ['a']), [['b']]) := by
  have h := c3_codeblock_content ("```js".toList) [['a'], "```".toList, ['b']] (by decide)
  rw [h]
  decide

/-- C8 (amended).  A line that is whitespace-only after trimming — whether or
not it was empty before trimming — produces no node and is skipped. -/
theorem c8_blank_line_skipped (l : List Char) (ls : List (List Char))
    (h : trim l = []) : parseLine l ls = (none, ls) := by
  unfold parseLine
  dsimp only
  rw [if_pos (by simp [h])]

/-- Witness for C8 at the one-space line. -/
theorem c8_blank_line_skipped_witness : parseLine [' '] [] = (none, []) :=
  c8_blank_line_skipped [' '] [] (by decide)

/-- C8 counterexample: the one-space line is non-empty before trimming and
whitespace-only after it, yet the scanner emits no node at all (the document
parses to the empty sequence, not to an empty paragraph). -/
theorem c8_counterexample :
    ([' '] : List Char) ≠ [] ∧ trim [' '] = [] ∧ parseMarkdown [' '] = [] := by
  decide

/-- C7 (amended).  During list parsing a blank line survives exactly when the
immediately following line matches the active marker pattern (the main pattern
in the outer loop; the nested or main pattern in the nested loop); the
lookahead inspects only that one line, so a blank line followed by anything
else — including another blank line — stops the current scan. -/
theorem c7_blank_lookahead (o : Bool) (l : List Char) (ls : List (List Char))
    (hb : trim l = []) :
    (peekNextNonEmpty ls [o] = true → scanListItems o (l :: ls) = scanListItems o ls) ∧
    (peekNextNonEmpty ls [o] = false → scanListItems o (l :: ls) = ([], l :: ls)) ∧
    (peekNextNonEmpty ls [!o, o] = true →
      scanNestedItems o (l :: ls) = scanNestedItems o ls) ∧
    (peekNextNonEmpty ls [!o, o] = false →
      scanNestedItems o (l :: ls) = ([], l :: ls)) := by
  have hm : matchListPat o (trim l) = none := by
    rw [hb]
    cases o <;> rfl
  have hm2 : matchListPat (!o) (trim l) = none := by
    rw [hb]
    cases o <;> rfl
  refine ⟨?_, ?_, ?_, ?_⟩
  · intro hp
    rw [scanListItems_cons, hm]
    simp [hb, hp]
  · intro hp
    rw [scanListItems_cons, hm]
    simp [hb, hp]
  · intro hp
    conv_lhs => unfold scanNestedItems
    rw [hm2]
    simp [hb, hp]
  · intro hp
    unfold scanNestedItems
    rw [hm2]
    simp [hb, hp]

/-- Witness for C7 (amended): a blank line directly followed by a matching
unordered item line is skipped by the item loop. -/
theorem c7_blank_lookahead_witness :
    scanListItems false [[], ['-', ' ', 'b']] = scanListItems false [['-', ' ', 'b']] :=
  (c7_blank_lookahead false [] [['-', ' ', 'b']] rfl).1 (by decide)

/-- C7 counterexample: after `- a` and two blank lines, the next non-blank
line `- b` still matches the active unordered pattern, yet the list is
terminated at the first blank (the lookahead only inspects the immediately
next line, which is blank): the document parses to two separate single-item
lists, not one continued list. -/
theorem c7_counterexample :
    matchUnordered (trim ("- b".toList)) = some ['b'] ∧
    parseMarkdown ("- a\n\n\n- b".toList) =
      [.list false [⟨[.text ['a']], none⟩], .list false [⟨[.text ['b']], none⟩]] := by
  decide

/-! ### Classification of list-marker lines -/

theorem trim_nil : trim [] = [] := rfl

theorem matchListPat_nil (o : Bool) : matchListPat o [] = none := by
  cases o <;> rfl

theorem matchWsRest_head {r c : List Char} (h : matchWsRest r = some c) :
    ∃ a r', r = a :: r' ∧ isWs a = true := by
  cases r with
  | nil => simp [matchWsRest] at h
  | cons a r' =>
    refine ⟨a, r', rfl, ?_⟩
    by_cases ha : isWs a = true
    · exact ha
    · exfalso
      unfold matchWsRest at h
      dsimp only at h
      rw [List.takeWhile_cons] at h
      simp [ha] at h

theorem matchUnordered_shape {t c : List Char} (h : matchUnordered t = some c) :
    ∃ m r, t = m :: r ∧ (m = '-' ∨ m = '*' ∨ m = '+') ∧ matchWsRest r = some c := by
  cases t with
  | nil => simp [matchUnordered] at h
  | cons m r =>
    simp only [matchUnordered] at h
    by_cases hm : (m == '-' || m == '*' || m == '+') = true
    · rw [if_pos hm] at h
      refine ⟨m, r, rfl, ?_, h⟩
      simpa [or_assoc] using hm
    · rw [if_neg hm] at h
      exact absurd h (by simp)

theorem matchOrdered_shape {t c : List Char} (h : matchOrdered t = some c) :
    ∃ m r, t = m :: r ∧ m.isDigit = true := by
  unfold matchOrdered at h
  dsimp only at h
  split at h
  case _ r heq =>
    split at h
    case _ => exact absurd h (by simp)
    case _ hds =>
      obtain ⟨a, r', ht, ha⟩ :=
        takeWhile_ne_nil_cons (p := Char.isDigit) (l := t) (by simpa using hds)
      exact ⟨a, r', ht, ha⟩
  case _ => exact absurd h (by simp)

theorem startsWithFence_head {t : List Char} (h : startsWithFence t = true) :
    ∃ r', t = '`' :: r' := by
  unfold startsWithFence at h
  split at h
  case _ => exact ⟨_, rfl⟩
  case _ => exact absurd h (by simp)

theorem startsWithGt_head {t : List Char} (h : startsWithGt t = true) :
    ∃ r', t = '>' :: r' := by
  unfold startsWithGt at h
  split at h
  case _ => exact ⟨_, rfl⟩
  case _ => exact absurd h (by simp)

theorem beq_eq_false_of_isDigit {m : Char} (c0 : Char) (hd : m.isDigit = true)
    (hc : c0.isDigit = false) : (m == c0) = false := by
  cases hb : m == c0
  · rfl
  · have he : m = c0 := by simpa using hb
    subst he
    simp [hd] at hc

theorem matchHeading_eq_none {m : Char} {r : List Char} (hm : (m == '#') = false) :
    matchHeading (m :: r) = none := by
  unfold matchHeading
  dsimp only
  rw [List.takeWhile_cons]
  simp [hm]

theorem isHr_eq_false_head {m : Char} {r : List Char}
    (hm : (m == '-' || m == '*' || m == '_') = false) : isHr (m :: r) = false := by
  simp only [isHr, hm, Bool.false_and]

theorem isHr_eq_false_second {m a : Char} {r : List Char} (ha : (a == m) = false) :
    isHr (m :: a :: r) = false := by
  simp [isHr, List.all_cons, ha]

theorem ws_ne_marker {a m : Char} (ha : isWs a = true)
    (hm : m = '-' ∨ m = '*' ∨ m = '+') : (a == m) = false := by
  cases hb : a == m
  · rfl
  · exfalso
    have he : a = m := by simpa using hb
    subst he
    rcases hm with rfl | rfl | rfl <;> exact absurd ha (by decide)

/-- The ordered and unordered marker patterns are disjoint (digits versus
`-`/`*`/`+` first characters): a line matching one fails the other. -/
theorem matchListPat_not {o : Bool} {t c : List Char} (h : matchListPat o t = some c) :
    matchListPat (!o) t = none := by
  cases o with
  | true =>
    obtain ⟨m, r, ht, hd⟩ := matchOrdered_shape (by simpa [matchListPat] using h)
    subst ht
    show matchUnordered (m :: r) = none
    have h1 := beq_eq_false_of_isDigit '-' hd (by decide)
    have h2 := beq_eq_false_of_isDigit '*' hd (by decide)
    have h3 := beq_eq_false_of_isDigit '+' hd (by decide)
    simp [matchUnordered, h1, h2, h3]
  | false =>
    obtain ⟨m, r, ht, hm, _⟩ := matchUnordered_shape (by simpa [matchListPat] using h)
    subst ht
    show matchOrdered (m :: r) = none
    rcases hm with rfl | rfl | rfl <;> rfl

theorem isSome_matchOrdered_eq {o : Bool} {t c : List Char}
    (h : matchListPat o t = some c) : (matchOrdered t).isSome = o := by
  cases o with
  | true =>
    simp only [matchListPat, if_true] at h
    simp [h]
  | false =>
    have hn := matchListPat_not h
    simp only [Bool.not_false, matchListPat, if_true] at hn
    simp [hn]

theorem matchListPat_ne_nil {o : Bool} {t c : List Char}
    (h : matchListPat o t = some c) : t.isEmpty = false := by
  cases o with
  | true =>
    obtain ⟨m, r, ht, _⟩ := matchOrdered_shape (by simpa [matchListPat] using h)
    subst ht
    rfl
  | false =>
    obtain ⟨m, r, ht, _, _⟩ := matchUnordered_shape (by simpa [matchListPat] using h)
    subst ht
    rfl

/-- A line matching a list-marker pattern is routed by `parseLine` to
`parseList` (none of the earlier block rules can match it). -/
theorem parseLine_listline {o : Bool} {l c : List Char} (ls : List (List Char))
    (h : matchListPat o (trim l) = some c) :
    parseLine l ls =
      (some (.list o (scanListItems o (l :: ls)).1), (scanListItems o (l :: ls)).2) := by
  have ho : (matchOrdered (trim l)).isSome = o := isSome_matchOrdered_eq h
  have hshape : ∃ m r, trim l = m :: r ∧
      ((o = true ∧ m.isDigit = true) ∨
       (o = false ∧ (m = '-' ∨ m = '*' ∨ m = '+') ∧ matchWsRest r = some c)) := by
    cases o with
    | true =>
      obtain ⟨m, r, ht, hd⟩ := matchOrdered_shape (by simpa [matchListPat] using h)
      exact ⟨m, r, ht, Or.inl ⟨rfl, hd⟩⟩
    | false =>
      obtain ⟨m, r, ht, hm, hw⟩ := matchUnordered_shape (by simpa [matchListPat] using h)
      exact ⟨m, r, ht, Or.inr ⟨rfl, hm, hw⟩⟩
  obtain ⟨m, r, ht, hcase⟩ := hshape
  have hne : (trim l).isEmpty = false := by rw [ht]; rfl
  have hfence : startsWithFence (trim l) = false := by
    cases hb : startsWithFence (trim l)
    · rfl
    · exfalso
      obtain ⟨r', he⟩ := startsWithFence_head hb
      rw [ht] at he
      injection he with hh _
      rcases hcase with ⟨_, hd⟩ | ⟨_, hm, _⟩
      · rw [hh] at hd
        exact absurd hd (by decide)
      · rcases hm with rfl | rfl | rfl <;> simp at hh
  have hhead : matchHeading (trim l) = none := by
    rw [ht]
    apply matchHeading_eq_none
    rcases hcase with ⟨_, hd⟩ | ⟨_, hm, _⟩
    · exact beq_eq_false_of_isDigit '#' hd (by decide)
    · rcases hm with rfl | rfl | rfl <;> decide
  have hhr : isHr (trim l) = false := by
    rw [ht]
    rcases hcase with ⟨_, hd⟩ | ⟨_, hm, hw⟩
    · apply isHr_eq_false_head
      have h1 := beq_eq_false_of_isDigit '-' hd (by decide)
      have h2 := beq_eq_false_of_isDigit '*' hd (by decide)
      have h3 := beq_eq_false_of_isDigit '_' hd (by decide)
      simp [h1, h2, h3]
    · obtain ⟨a, r', hr, ha⟩ := matchWsRest_head hw
      rw [hr]
      exact isHr_eq_false_second (ws_ne_marker ha hm)
  have hgt : startsWithGt (trim l) = false := by
    cases hb : startsWithGt (trim l)
    · rfl
    · exfalso
      obtain ⟨r', he⟩ := startsWithGt_head hb
      rw [ht] at he
      injection he with hh _
      rcases hcase with ⟨_, hd⟩ | ⟨_, hm, _⟩
      · rw [hh] at hd
        exact absurd hd (by decide)
      · rcases hm with rfl | rfl | rfl <;> simp at hh
  have hguard : ((matchOrdered (trim l)).isSome || (matchUnordered (trim l)).isSome) = true := by
    rcases hcase with ⟨ho1, _⟩ | ⟨ho1, _, _⟩
    · rw [ho, ho1]
      rfl
    · have hu : matchUnordered (trim l) = some c := by
        simpa [matchListPat, ho1] using h
      simp [hu]
  unfold parseLine parseList
  dsimp only
  rw [if_neg (by simp [hne]), if_neg (by simp [hfence]), hhead, if_neg (by simp [hhr]),
      if_neg (by simp [hgt]), if_pos (by simp [hguard]), ho]

/-- A line whose trimmed form is blank produces no node and is skipped (the
internal form of the blank-line rule, used by the document-level proofs). -/
theorem parseLine_blank (l : List Char) (ls : List (List Char)) (h : trim l = []) :
    parseLine l ls = (none, ls) := by
  unfold parseLine
  dsimp only
  rw [if_pos (by simp [h])]

/-! ### Splitting on newlines -/

theorem splitLines_no_newline {l : List Char} (h : l.contains '\n' = false) :
    splitLines l = [l] := by
  induction l with
  | nil => rfl
  | cons c cs ih =>
    rw [List.contains_cons] at h
    have hc : ¬c = '\n' := by
      intro hc
      subst hc
      simp at h
    have hcs : cs.contains '\n' = false := by
      rcases Bool.or_eq_false_iff.mp h with ⟨_, h2⟩
      exact h2
    unfold splitLines
    rw [if_neg hc, ih hcs]

theorem splitLines_append {l r : List Char} (h : l.contains '\n' = false) :
    splitLines (l ++ '\n' :: r) = l :: splitLines r := by
  induction l with
  | nil => simp [splitLines]
  | cons c cs ih =>
    rw [List.contains_cons] at h
    have hc : ¬c = '\n' := by
      intro hc
      subst hc
      simp at h
    have hcs : cs.contains '\n' = false := by
      rcases Bool.or_eq_false_iff.mp h with ⟨_, h2⟩
      exact h2
    rw [List.cons_append]
    conv_lhs => unfold splitLines
    rw [if_neg hc, ih hcs]

/-- C6.  For any two lines matching the same list-marker pattern (ordered or
unordered — all of `-`, `*`, `+` are the one unordered marker), a single blank
line between them does not split the list: the document parses to one list
node holding both items.  Two consecutive blank lines do split it (two
single-item lists), and a blank line followed by a line matching neither
marker pattern ends the list there, the rest of the document parsing
independently. -/
theorem c6_list_continuation (o : Bool) (l1 l2 l3 c1 c2 : List Char)
    (h1n : l1.contains '\n' = false) (h2n : l2.contains '\n' = false)
    (h3n : l3.contains '\n' = false)
    (h1 : matchListPat o (trim l1) = some c1) (h2 : matchListPat o (trim l2) = some c2)
    (h3o : matchOrdered (trim l3) = none) (h3u : matchUnordered (trim l3) = none) :
    parseMarkdown (l1 ++ '\n' :: '\n' :: l2) =
      [.list o [⟨parseInline c1, none⟩, ⟨parseInline c2, none⟩]] ∧
    parseMarkdown (l1 ++ '\n' :: '\n' :: '\n' :: l2) =
      [.list o [⟨parseInline c1, none⟩], .list o [⟨parseInline c2, none⟩]] ∧
    parseMarkdown (l1 ++ '\n' :: '\n' :: l3) =
      .list o [⟨parseInline c1, none⟩] :: parseBlocks [l3] := by
  have hnot2 : matchListPat (!o) (trim l2) = none := matchListPat_not h2
  have hne2 : (trim l2).isEmpty = false := matchListPat_ne_nil h2
  have h3p : ∀ p : Bool, matchListPat p (trim l3) = none := by
    intro p
    cases p <;> simp [matchListPat, h3o, h3u]
  have hscan2 : scanListItems o [l2] = ([⟨parseInline c2, none⟩], []) := by
    rw [scanListItems_cons, h2]
    simp [scanNestedItems, scanListItems_nil]
  refine ⟨?_, ?_, ?_⟩
  · -- single blank line: one list with both items
    have hpeek : peekNextNonEmpty [l2] [!o, o] = true := by
      simp [peekNextNonEmpty, h2]
    have hnestA : scanNestedItems o [[], l2] = ([], [l2]) := by
      conv_lhs => unfold scanNestedItems
      simp only [trim_nil, matchListPat_nil, List.isEmpty_nil, hpeek, Bool.and_self,
        if_true]
      conv_lhs => unfold scanNestedItems
      simp [hnot2, hne2]
    have hmainA :
        scanListItems o [l1, [], l2] =
          ([⟨parseInline c1, none⟩, ⟨parseInline c2, none⟩], []) := by
      rw [scanListItems_cons, h1]
      simp only [hnestA, hscan2]
      simp
    have hlineA :
        parseLine l1 [[], l2] =
          (some (.list o [⟨parseInline c1, none⟩, ⟨parseInline c2, none⟩]), []) := by
      rw [parseLine_listline [[], l2] h1, hmainA]
    unfold parseMarkdown
    rw [splitLines_append h1n]
    have hs : splitLines ('\n' :: l2) = [] :: splitLines l2 := by
      simp [splitLines]
    rw [hs, splitLines_no_newline h2n]
    rw [parseBlocks_cons, hlineA]
    simp [parseBlocks_nil]
  · -- two blank lines: the list is split in two
    have hpkB : peekNextNonEmpty [[], l2] [!o, o] = false := by
      simp [peekNextNonEmpty, trim_nil, matchListPat_nil]
    have hpkB2 : peekNextNonEmpty [[], l2] [o] = false := by
      simp [peekNextNonEmpty, trim_nil, matchListPat_nil]
    have hnestB : scanNestedItems o [[], [], l2] = ([], [[], [], l2]) := by
      conv_lhs => unfold scanNestedItems
      simp [trim_nil, matchListPat_nil, hpkB]
    have hrestB : scanListItems o [[], [], l2] = ([], [[], [], l2]) := by
      rw [scanListItems_cons]
      simp [trim_nil, matchListPat_nil, hpkB2]
    have hmainB :
        scanListItems o [l1, [], [], l2] = ([⟨parseInline c1, none⟩], [[], [], l2]) := by
      rw [scanListItems_cons, h1]
      simp only [hnestB, hrestB]
      simp
    have hlineB :
        parseLine l1 [[], [], l2] =
          (some (.list o [⟨parseInline c1, none⟩]), [[], [], l2]) := by
      rw [parseLine_listline [[], [], l2] h1, hmainB]
    have hline2 : parseLine l2 [] = (some (.list o [⟨parseInline c2, none⟩]), []) := by
      rw [parseLine_listline [] h2, hscan2]
    unfold parseMarkdown
    rw [splitLines_append h1n]
    have hs : splitLines ('\n' :: '\n' :: l2) = [] :: [] :: splitLines l2 := by
      simp [splitLines]
    rw [hs, splitLines_no_newline h2n]
    rw [parseBlocks_cons, hlineB]
    dsimp only
    rw [parseBlocks_cons, parseLine_blank [] _ rfl]
    dsimp only
    rw [parseBlocks_cons, parseLine_blank [] _ rfl]
    dsimp only
    rw [parseBlocks_cons, hline2]
    simp [parseBlocks_nil]
  · -- blank line then a non-list line: the list ends there
    have hpk3 : peekNextNonEmpty [l3] [!o, o] = false := by
      simp [peekNextNonEmpty, h3p]
    have hpk3b : peekNextNonEmpty [l3] [o] = false := by
      simp [peekNextNonEmpty, h3p]
    have hnestC : scanNestedItems o [[], l3] = ([], [[], l3]) := by
      conv_lhs => unfold scanNestedItems
      simp [trim_nil, matchListPat_nil, hpk3]
    have hrestC : scanListItems o [[], l3] = ([], [[], l3]) := by
      rw [scanListItems_cons]
      simp [trim_nil, matchListPat_nil, hpk3b]
    have hmainC : scanListItems o [l1, [], l3] = ([⟨parseInline c1, none⟩], [[], l3]) := by
      rw [scanListItems_cons, h1]
      simp only [hnestC, hrestC]
      simp
    have hlineC :
        parseLine l1 [[], l3] = (some (.list o [⟨parseInline c1, none⟩]), [[], l3]) := by
      rw [parseLine_listline [[], l3] h1, hmainC]
    unfold parseMarkdown
    rw [splitLines_append h1n]
    have hs : splitLines ('\n' :: l3) = [] :: splitLines l3 := by
      simp [splitLines]
    rw [hs, splitLines_no_newline h3n]
    rw [parseBlocks_cons, hlineC]
    dsimp only
    rw [parseBlocks_cons, parseLine_blank [] _ rfl]

/-- Witness for C6: `- a`, one blank line, `* b` (both unordered markers)
parse to one two-item unordered list. -/
theorem c6_list_continuation_witness :
    parseMarkdown ("- a".toList ++ '\n' :: '\n' :: "* b".toList) =
      [.list false [⟨parseInline ['a'], none⟩, ⟨parseInline ['b'], none⟩]] :=
  (c6_list_continuation false ("- a".toList) ("* b".toList) ("# h".toList) ['a'] ['b']
    (by decide) (by decide) (by decide) (by decide) (by decide) (by decide) (by decide)).1

end MdRender
